import Mathlib

/-!
Verification of the security-and-concurrency kernel of the sandboxed
file-operation backend (`src/core/security.py`, `src/core/archive.py`,
`src/core/locking.py`, `src/files/manager.py`).

The embedding is a shallow one over POSIX path strings modelled as lists of
characters (`List Char`): a Python `str` is its character sequence, and a
canonical absolute path is a list of path segments.  The filesystem is
assumed symlink-free, so `pathlib.Path.resolve()` is pure normalisation
(this matches the spec, which treats symlink resolution as the only
filesystem touch of the resolver).
-/

/-- A path segment: the characters strictly between two separators. -/
abbrev Seg := List Char

/-- A canonical absolute path, as the list of its segments
(`/a/b` is `[a, b]`, the filesystem root `/` is `[]`). -/
abbrev SPath := List Seg

/-- Characters of a string literal, for concrete test inputs. -/
def strChars (s : String) : List Char := s.toList

/-- The `..` segment. -/
def dotdot : Seg := ['.', '.']

/-- The `.` segment. -/
def dotSeg : Seg := ['.']

/-- Python `s.split('/')`: splits at every separator, keeping empty pieces
(`"".split('/') = [""]`, `"/a".split('/') = ["", "a"]`). -/
def splitSlash : List Char → List Seg
  | [] => [[]]
  | c :: rest =>
    if c = '/' then [] :: splitSlash rest
    else
      match splitSlash rest with
      | s :: ss => (c :: s) :: ss
      | [] => [[c]]

/-- Python `'/'.join(comps)`. -/
def joinSlash : List Seg → List Char
  | [] => []
  | [s] => s
  | s :: rest => s ++ '/' :: joinSlash rest

/-- The string `/s₁/s₂/…/sₙ` as characters (empty for the empty segment list). -/
def flat : List Seg → List Char
  | [] => []
  | s :: rest => '/' :: s ++ flat rest

/-- The string form `str(path)` of a canonical absolute path
(the root prints as `/`). -/
def pathChars (p : SPath) : List Char :=
  if p = [] then ['/'] else flat p

/-- Python `s.startswith(t)` on character lists. -/
def startsWith : List Char → List Char → Bool
  | _, [] => true
  | [], _ :: _ => false
  | c :: cs, d :: ds => c == d && startsWith cs ds

/-- Number of initial separators retained by `posixpath.normpath`:
one slash and three-or-more slashes collapse to one, exactly two stay two. -/
def initialSlashes : List Char → Nat
  | [] => 0
  | [c] => if c = '/' then 1 else 0
  | c₁ :: c₂ :: rest =>
    if c₁ = '/' then
      if c₂ = '/' then (if rest.headD 'x' = '/' then 1 else 2) else 1
    else 0

/-- Component loop of `posixpath.normpath`: `''` and `'.'` components are
dropped; `..` is kept when the path is relative and nothing precedes it or
when the previous kept component is itself `..`; otherwise `..` pops the
previous component (or is dropped at an absolute root). -/
def normCompsGo (abs : Bool) (acc : List Seg) : List Seg → List Seg
  | [] => acc
  | c :: rest =>
    if c = [] ∨ c = dotSeg then normCompsGo abs acc rest
    else if c ≠ dotdot ∨ (abs = false ∧ acc = []) ∨ acc.getLast? = some dotdot then
      normCompsGo abs (acc ++ [c]) rest
    else if acc ≠ [] then normCompsGo abs acc.dropLast rest
    else normCompsGo abs acc rest

/-- Embedding of `posixpath.normpath` on characters. -/
def normpathChars (s : List Char) : List Char :=
  if s = [] then ['.']
  else
    let k := initialSlashes s
    let comps := normCompsGo (k != 0) [] (splitSlash s)
    let out := List.replicate k '/' ++ joinSlash comps
    if out = [] then ['.'] else out

/-- The `pathlib` parse of a relative path string already free of leading
separators: spurious empty components and single dots are collapsed. -/
def parseParts (s : List Char) : List Seg :=
  (splitSlash s).filter (fun c => ¬(c = [] ∨ c = dotSeg))

/-- Embedding of `Path.resolve()` on an absolute segment list in a symlink-free tree:
`..` pops the previous segment and is a no-op at the root. -/
def resolveAbsGo (acc : List Seg) : List Seg → List Seg
  | [] => acc
  | c :: rest =>
    if c = dotdot then resolveAbsGo acc.dropLast rest
    else resolveAbsGo (acc ++ [c]) rest

/-- Embedding of `Path.resolve()` (symlink-free): collapse `..` segments, root-bounded. -/
def resolveAbs (segs : List Seg) : List Seg := resolveAbsGo [] segs

/-- The error raised by `resolve_secure_path`
(`PermissionError`, the spec's `SecurityViolation`). -/
inductive SecErr where
  | securityViolation
  deriving DecidableEq

/-- Embedding of `resolve_secure_path(relative_path, base_path)` from
`src/core/security.py`: normalise the input, strip leading separators,
join to the base, canonicalise and accept exactly when the canonical
string starts with the canonical base string. -/
def resolve_secure_path (base : SPath) (relative : List Char) :
    Except SecErr SPath :=
  let normalized := normpathChars relative
  let normalized :=
    if normalized.contains '/' && startsWith normalized ['/'] then
      normalized.dropWhile (· = '/')
    else normalized
  let full := resolveAbs (base ++ parseParts normalized)
  let baseResolved := resolveAbs base
  if startsWith (pathChars full) (pathChars baseResolved) then .ok full
  else .error .securityViolation

/-- Containment in the sense claimed by the spec: the canonical string of
the result equals the sandbox root's canonical string exactly, or extends
it by a separator. -/
def claimedInside (base p : SPath) : Bool :=
  pathChars p == pathChars base ||
    startsWith (pathChars p) (pathChars base ++ ['/'])

/-- A well-formed segment: nonempty, separator-free, and not `.` or `..`. -/
abbrev ValidSeg (s : Seg) : Prop :=
  s ≠ [] ∧ '/' ∉ s ∧ s ≠ dotSeg ∧ s ≠ dotdot

/-- A well-formed canonical path: every segment is well-formed. -/
abbrev ValidPath (p : SPath) : Prop := ∀ s ∈ p, ValidSeg s

/-- Sandbox root used for concrete tests: `/srv/sandbox`. -/
def demoBase : SPath := [strChars "srv", strChars "sandbox"]

/-! ### Archive guard (`src/core/archive.py`) -/

/-- Process-wide archive limits from `src/core/config.py`.
`ZIP_MAX_RATIO` is a Python float; it is embedded as an exact rational,
which agrees with the float semantics at every ratio the claims exercise. -/
structure ArchiveConfig where
  zipMaxTotalSize : Nat
  ratioLimit : ℚ
  zipMaxFiles : Nat
  zipMaxRecursionDepth : Nat
  deriving DecidableEq

/-- The default values from `config.py` (2 GB, 100.0, 1000, 5). -/
def defaultConfig : ArchiveConfig :=
  { zipMaxTotalSize := 2147483648
    ratioLimit := 100
    zipMaxFiles := 1000
    zipMaxRecursionDepth := 5 }

/-- The `ArchiveSecurityError` cases, refined by raise site: the Python class is one
exception type whose message distinguishes these cases. -/
inductive AErr where
  | tooManyFiles
  | ratioExceeded
  | zeroCompressed
  | totalTooLarge
  | depthExceeded
  | zipSlip
  | destEscape
  | extractTooLarge
  | badZip
  | sourceMissing
  deriving DecidableEq

/-- The `zipfile.ZipInfo` metadata consulted by validation. -/
structure ZMeta where
  filename : List Char
  file_size : Nat
  compress_size : Nat
  deriving DecidableEq

/-- Embedding of `validate_zip_entry(entry)`: ratio check for entries with nonzero
compressed size, zero-compressed/nonzero-uncompressed check otherwise. -/
def validate_zip_entry (cfg : ArchiveConfig) (entry : ZMeta) : Except AErr Unit :=
  if 0 < entry.compress_size then
    if (entry.file_size : ℚ) / (entry.compress_size : ℚ) > cfg.ratioLimit then
      .error .ratioExceeded
    else .ok ()
  else if 0 < entry.file_size then .error .zeroCompressed
  else .ok ()

/-- Loop body of `validate_zip_file`: counts entries, validates each one and
accumulates declared uncompressed/compressed totals, in source order. -/
def validateLoop (cfg : ArchiveConfig) (fileCount totalUnc totalComp : Nat) :
    List ZMeta → Except AErr (Nat × Nat × Nat)
  | [] => .ok (fileCount, totalUnc, totalComp)
  | e :: rest =>
    let fc := fileCount + 1
    if fc > cfg.zipMaxFiles then .error .tooManyFiles
    else
      match validate_zip_entry cfg e with
      | .error err => .error err
      | .ok _ =>
        let tu := totalUnc + e.file_size
        let tc := totalComp + e.compress_size
        if tu > cfg.zipMaxTotalSize then .error .totalTooLarge
        else validateLoop cfg fc tu tc rest

/-- Embedding of `validate_zip_file(zip_path)` over the archive's declared metadata. -/
def validate_zip_file (cfg : ArchiveConfig) (entries : List ZMeta) :
    Except AErr (Nat × Nat × Nat) :=
  validateLoop cfg 0 0 0 entries

/-- An archive entry: its stored name, declared sizes, the *actual* length
of its decompressed stream (which malicious metadata need not match), and,
for an entry that is itself a zip archive, the entries inside it. -/
inductive ZEntry where
  | file (name : List Char) (fileSize compressSize actual : Nat)
  | nest (name : List Char) (fileSize compressSize actual : Nat)
      (inner : List ZEntry)

/-- Declared metadata of an entry. -/
def ZEntry.meta : ZEntry → ZMeta
  | .file n fs cs _ => ⟨n, fs, cs⟩
  | .nest n fs cs _ _ => ⟨n, fs, cs⟩

/-- Stored name of an entry. -/
def ZEntry.entryName : ZEntry → List Char
  | .file n _ _ _ => n
  | .nest n _ _ _ _ => n

/-- Test of `Path(entry).is_absolute()`. -/
def isAbsoluteName (name : List Char) : Bool := startsWith name ['/']

/-- The zip-slip test of `safe_extract_zip`:
`entry_path.is_absolute() or ".." in entry_path.parts`. -/
def zipSlipName (name : List Char) : Bool :=
  isAbsoluteName name || (parseParts name).contains dotdot

/-- Test of `entry.endswith('/')`: a directory entry. -/
def endsWithSlash (name : List Char) : Bool := name.getLast? == some '/'

/-- Test of `entry.lower().endswith('.zip')`: nested-archive detection. -/
def isZipSuffix (name : List Char) : Bool :=
  (strChars ".zip").isSuffixOf (name.map Char.toLower)

/-- Embedding of `PurePath.stem`: the name minus its final dot-suffix (a dot in first or
last position does not open a suffix). -/
def stemChars (name : List Char) : List Char :=
  match name.reverse.findIdx? (· == '.') with
  | none => name
  | some j =>
    let i := name.length - 1 - j
    if 0 < i ∧ i < name.length - 1 then name.take i else name

/-- The chunked copy loop of `safe_extract_zip` (8192-byte reads): given the
actual remaining stream length, the per-entry running total so far and the
bytes already written, returns the bytes written and whether the copy
finished (`false` means the quota error was raised mid-stream). -/
def streamLoop (cfg : ArchiveConfig) (remaining total written : Nat) :
    Nat × Bool :=
  if _h : remaining = 0 then (written, true)
  else
    let chunk := min 8192 remaining
    let t := total + chunk
    if t > cfg.zipMaxTotalSize then (written, false)
    else streamLoop cfg (remaining - chunk) t (written + chunk)
termination_by remaining
decreasing_by
  omega

/-- The whole chunked copy of one entry, starting from a zero total. -/
def streamEntry (cfg : ArchiveConfig) (actual : Nat) : Nat × Bool :=
  streamLoop cfg actual 0 0

mutual

/-- Embedding of `safe_extract_zip(zip_path, destination, max_depth)`: depth guard,
metadata validation, re-resolution of the destination under the sandbox
root (for a canonical absolute destination `resolve_secure_path` strips the
leading separator and re-roots it, theorem `resolve_reroot`), then the
per-entry loop.  Returns the total bytes written to disk together with the
extracted file paths or the error raised. -/
def safe_extract_zip (cfg : ArchiveConfig) (base destination : SPath)
    (entries : List ZEntry) (maxDepth : Nat) : Nat × Except AErr (List SPath) :=
  match maxDepth with
  | 0 => (0, .error .depthExceeded)
  | d + 1 =>
    match validate_zip_file cfg (entries.map ZEntry.meta) with
    | .error err => (0, .error err)
    | .ok _ =>
      let destR := base ++ destination
      extractEntries cfg base destR entries d

/-- The `for entry in zf.namelist()` loop: entries processed in order, the
first error aborting the rest; written bytes accumulate across entries. -/
def extractEntries (cfg : ArchiveConfig) (base destR : SPath)
    (entries : List ZEntry) (d : Nat) : Nat × Except AErr (List SPath) :=
  match entries with
  | [] => (0, .ok [])
  | e :: rest =>
    match extractOne cfg base destR e d with
    | (w, .error err) => (w, .error err)
    | (w, .ok fs) =>
      match extractEntries cfg base destR rest d with
      | (w2, .error err) => (w + w2, .error err)
      | (w2, .ok fs2) => (w + w2, .ok (fs ++ fs2))

/-- Processing of a single entry, in source order: zip-slip name check,
canonical destination containment check, per-entry metadata validation,
directory creation for `…/` names, chunked streaming with the per-entry
quota, and recursive extraction (with `max_depth - 1`) of `.zip` entries
into `parent / stem`, whose canonical path is re-rooted by
`resolve_secure_path` exactly as the top-level destination was. -/
def extractOne (cfg : ArchiveConfig) (base destR : SPath) (e : ZEntry)
    (d : Nat) : Nat × Except AErr (List SPath) :=
  if zipSlipName e.entryName then (0, .error .zipSlip)
  else
    let fullEntry := resolveAbs (destR ++ parseParts e.entryName)
    if startsWith (pathChars fullEntry) (pathChars destR) = false then
      (0, .error .destEscape)
    else
      match validate_zip_entry cfg e.meta with
      | .error err => (0, .error err)
      | .ok _ =>
        if endsWithSlash e.entryName then (0, .ok [])
        else
          match e with
          | .file _ _ _ actual =>
            match streamEntry cfg actual with
            | (w, false) => (w, .error .extractTooLarge)
            | (w, true) =>
              if isZipSuffix e.entryName then (w, .error .badZip)
              else (w, .ok [fullEntry])
          | .nest _ _ _ actual inner =>
            match streamEntry cfg actual with
            | (w, false) => (w, .error .extractTooLarge)
            | (w, true) =>
              if isZipSuffix e.entryName then
                let childDest :=
                  fullEntry.dropLast ++ [stemChars (fullEntry.getLast?.getD [])]
                match safe_extract_zip cfg base childDest inner d with
                | (w2, .error err) => (w + w2, .error err)
                | (w2, .ok fs) => (w + w2, .ok (fullEntry :: fs))
              else (w, .ok [fullEntry])

end

/-- A source passed to `safe_create_zip`: a plain file of a given size, a
directory whose recursive walk yields files of the given sizes, or a path
that exists as neither (`Источник не найден`). -/
inductive Src where
  | file (size : Nat)
  | dir (files : List Nat)
  | missing

/-- The `rglob` walk of one directory source: count and size checks are
made after each file of the directory. -/
def walkDir (cfg : ArchiveConfig) (fileCount totalSize : Nat) :
    List Nat → Except AErr (Nat × Nat)
  | [] => .ok (fileCount, totalSize)
  | sz :: rest =>
    let fc := fileCount + 1
    let ts := totalSize + sz
    if fc > cfg.zipMaxFiles then .error .tooManyFiles
    else if ts > cfg.zipMaxTotalSize then .error .totalTooLarge
    else walkDir cfg fc ts rest

/-- The pre-flight source walk of `safe_create_zip`: plain-file sources
increment the accumulators with no check; directory sources are walked
with checks; a missing source raises immediately. -/
def createPreflight (cfg : ArchiveConfig) (fileCount totalSize : Nat) :
    List Src → Except AErr (Nat × Nat)
  | [] => .ok (fileCount, totalSize)
  | .file sz :: rest => createPreflight cfg (fileCount + 1) (totalSize + sz) rest
  | .dir files :: rest =>
    match walkDir cfg fileCount totalSize files with
    | .error err => .error err
    | .ok (fc, ts) => createPreflight cfg fc ts rest
  | .missing :: _ => .error .sourceMissing

/-- Embedding of `safe_create_zip(sources, destination)`: the pre-flight accounting walk
followed by the archive write (the write itself has no quota logic and is
abstracted to success). -/
def safe_create_zip (cfg : ArchiveConfig) (sources : List Src) :
    Except AErr Unit :=
  match createPreflight cfg 0 0 sources with
  | .error err => .error err
  | .ok _ => .ok ()

/-! ### Atomic write protocol (`FileManager.write_file`, append mode) -/

/-- The part of the filesystem the staging protocol touches: the target
file's content and the staging (`.tmp`) file's content, if present. -/
structure FState where
  target : Option (List Char)
  temp : Option (List Char)
  deriving DecidableEq

/-- Errors surfaced by `write_file`. -/
inductive WErr where
  | notFound
  | ioFailure
  deriving DecidableEq

/-- Failure-injection points for the staging protocol: no failure, an
exception while reading the old content, an exception midway through
writing the staging file (with the bytes staged so far), or an exception
in the rename call before it takes effect (the rename is atomic: it either
fully happens or leaves the target untouched). -/
inductive WFail where
  | noFail
  | atRead
  | atWriteTemp (part : List Char)
  | atReplace
  deriving DecidableEq

/-- The `except` cleanup of `write_file`:
`if temp_path.exists(): temp_path.unlink()`. -/
def cleanupTemp (st : FState) : FState :=
  match st.temp with
  | some _ => { st with temp := none }
  | none => st

/-- Embedding of `FileManager.write_file` with `append=True`: require the target to
exist, read the old content, write old ++ new to the staging file, then
atomically rename the staging file onto the target; on any exception the
cleanup removes the staging file and the error propagates.  Returns the
resulting filesystem state and the reported size or error. -/
def write_file_append (st : FState) (content : List Char) (fail : WFail) :
    FState × Except WErr Nat :=
  match st.target with
  | none => (st, .error .notFound)
  | some existing =>
    match fail with
    | .atRead => (cleanupTemp st, .error .ioFailure)
    | .atWriteTemp part =>
      (cleanupTemp { st with temp := some part }, .error .ioFailure)
    | .atReplace =>
      (cleanupTemp { st with temp := some (existing ++ content) },
        .error .ioFailure)
    | .noFail =>
      let newContent := existing ++ content
      ({ target := some newContent, temp := none }, .ok newContent.length)

/-! ### Lock manager (`src/core/locking.py`) -/

/-- A lock key is the canonical absolute path string
(`LockManager._get_lock_key`: `str(Path(path).resolve())`). -/
def lockKey (p : SPath) : List Char := pathChars (resolveAbs p)

/-- Python string `<=`: code-point lexicographic order. -/
def leChars : List Char → List Char → Bool
  | [], _ => true
  | _ :: _, [] => false
  | a :: as, b :: bs => if a = b then leChars as bs else decide (a < b)

/-- Insertion into a sorted key list. -/
def insertSorted (k : List Char) : List (List Char) → List (List Char)
  | [] => [k]
  | x :: xs => if leChars k x then k :: x :: xs else x :: insertSorted k xs

/-- Python `sorted` on lock keys (any correct sort is unique here because
`leChars` is a total antisymmetric order on strings). -/
def sortKeys : List (List Char) → List (List Char)
  | [] => []
  | x :: xs => insertSorted x (sortKeys xs)

/-- Errors surfaced by `execute_locked_multi`: the `asyncio.TimeoutError`
of a lock acquisition (the spec's `ResourceBusy`), or failure of the
wrapped operation itself. -/
inductive LErr where
  | resourceBusy
  | opFailed
  deriving DecidableEq

/-- The acquisition chain: walk the sorted keys; a key currently busy
(held elsewhere past the timeout) raises, keys before it are acquired. -/
def acquireLoop (busy : List Char → Bool) :
    List (List Char) → List (List Char) × Option (List Char)
  | [] => ([], none)
  | k :: rest =>
    if busy k then ([], some k)
    else
      match acquireLoop busy rest with
      | (acq, timedOut) => (k :: acq, timedOut)

/-- Observable outcome of one `execute_locked_multi` call: the keys it
acquired in acquisition order, the keys it released in release order, and
the call's result. -/
structure MultiRun where
  acquired : List (List Char)
  released : List (List Char)
  result : Except LErr Unit

/-- Embedding of `LockManager.execute_locked_multi(paths, operation)`: sort the
canonical keys, acquire strictly in sorted order; if an acquisition times
out the `TimeoutError` propagates and the `finally` block releases every
lock already held in reverse acquisition order; on success the operation
runs and the same `finally` releases all locks in reverse order.  (The
`else` branch of the source that releases in forward order is dead code:
`asyncio.wait_for(lock.acquire(), …)` either returns `True` or raises.) -/
def execute_locked_multi (busy : List Char → Bool) (paths : List SPath)
    (op : Except LErr Unit) : MultiRun :=
  let sortedKeys := sortKeys (paths.map lockKey)
  match acquireLoop busy sortedKeys with
  | (acq, some _) =>
    { acquired := acq, released := acq.reverse, result := .error .resourceBusy }
  | (acq, none) =>
    { acquired := acq, released := acq.reverse, result := op }

/-- Whether an `Except` is a success. -/
def exceptIsOk {ε α : Type} : Except ε α → Bool
  | .ok _ => true
  | .error _ => false

/-- A chain of nested archives: `chainZip 0` holds one plain file and
`chainZip (k+1)` wraps `chainZip k` in one more archive named `a.zip`
(all declared sizes and actual stream lengths zero, so every quota check
except the depth guard passes). -/
def chainZip : Nat → List ZEntry
  | 0 => [.file (strChars "f.txt") 0 0 0]
  | k + 1 => [.nest (strChars "a.zip") 0 0 0 (chainZip k)]

/-- Configuration for the C6 evidence: file-count cap 1, size cap 100. -/
def c6cfg : ArchiveConfig :=
  { zipMaxTotalSize := 100, ratioLimit := 100, zipMaxFiles := 1,
    zipMaxRecursionDepth := 5 }

/-- Configuration for the C5 evidence: global size cap 10 bytes. -/
def c5cfg : ArchiveConfig :=
  { zipMaxTotalSize := 10, ratioLimit := 100, zipMaxFiles := 1000,
    zipMaxRecursionDepth := 5 }

/-- Two entries whose declared sizes (0) under-report their actual
10-byte streams. -/
def c5entries : List ZEntry :=
  [.file (strChars "a.txt") 0 0 10, .file (strChars "b.txt") 0 0 10]

/-! ### Path lemmas: canonical strings round-trip through the resolver -/

theorem startsWith_append (p t : List Char) : startsWith (p ++ t) p = true := by
  induction p with
  | nil => cases t <;> rfl
  | cons c cs ih => simp [startsWith, ih]

theorem startsWith_refl (p : List Char) : startsWith p p = true := by
  have h := startsWith_append p []
  simpa using h

theorem flat_append (a b : List Seg) : flat (a ++ b) = flat a ++ flat b := by
  induction a with
  | nil => simp [flat]
  | cons s rest ih => simp [flat, ih]

theorem flat_eq_join (segs : List Seg) (h : segs ≠ []) :
    flat segs = '/' :: joinSlash segs := by
  induction segs with
  | nil => simp at h
  | cons x rest ih =>
    cases rest with
    | nil => simp [flat, joinSlash]
    | cons y r =>
      have ihr := ih (by simp)
      calc flat (x :: y :: r) = '/' :: (x ++ flat (y :: r)) := by simp [flat]
        _ = '/' :: (x ++ '/' :: joinSlash (y :: r)) := by rw [ihr]
        _ = '/' :: joinSlash (x :: y :: r) := by simp [joinSlash]

theorem splitSlash_append (s : List Char) (hs : '/' ∉ s) (t : List Char)
    (h : Seg) (ts : List Seg) (ht : splitSlash t = h :: ts) :
    splitSlash (s ++ t) = (s ++ h) :: ts := by
  induction s with
  | nil => simpa using ht
  | cons c cs ih =>
    have hc : c ≠ '/' := fun hceq => hs (by simp [hceq])
    have hcs : '/' ∉ cs := fun hmem => hs (by simp [hmem])
    have ihcs := ih hcs
    simp only [List.cons_append, splitSlash, if_neg hc, List.append_eq, ihcs]

theorem splitSlash_flat (segs : List Seg) (h : ∀ s ∈ segs, '/' ∉ s) :
    splitSlash (flat segs) = [] :: segs := by
  induction segs with
  | nil => rfl
  | cons x rest ih =>
    have hx : '/' ∉ x := h x (by simp)
    have hrest : ∀ s ∈ rest, '/' ∉ s := fun s hs => h s (by simp [hs])
    have ihr := ih hrest
    have : splitSlash (x ++ flat rest) = (x ++ []) :: rest :=
      splitSlash_append x hx (flat rest) [] rest ihr
    simp only [flat, splitSlash, if_pos rfl, List.cons_append]
    simpa using this

theorem splitSlash_join (segs : List Seg) (hne : segs ≠ [])
    (h : ∀ s ∈ segs, '/' ∉ s) : splitSlash (joinSlash segs) = segs := by
  induction segs with
  | nil => simp at hne
  | cons x rest ih =>
    cases rest with
    | nil =>
      have hx : '/' ∉ x := h x (by simp)
      have : splitSlash (x ++ []) = (x ++ []) :: [] :=
        splitSlash_append x hx [] [] [] rfl
      simpa using this
    | cons y r =>
      have hx : '/' ∉ x := h x (by simp)
      have hrest : ∀ s ∈ y :: r, '/' ∉ s := fun s hs => h s (by simp [hs])
      have ihr := ih (by simp) hrest
      have hsplit : splitSlash ('/' :: joinSlash (y :: r)) = [] :: y :: r := by
        simp [splitSlash, ihr]
      have : splitSlash (x ++ '/' :: joinSlash (y :: r)) = (x ++ []) :: y :: r :=
        splitSlash_append x hx _ [] (y :: r) hsplit
      simpa [joinSlash] using this

theorem normCompsGo_plain (comps : List Seg)
    (h : ∀ c ∈ comps, c ≠ [] ∧ c ≠ dotSeg ∧ c ≠ dotdot) :
    ∀ (abs : Bool) (acc : List Seg), normCompsGo abs acc comps = acc ++ comps := by
  induction comps with
  | nil => intro abs acc; simp [normCompsGo]
  | cons c rest ih =>
    intro abs acc
    obtain ⟨hne, hdot, hdd⟩ := h c (by simp)
    have hrest : ∀ x ∈ rest, x ≠ [] ∧ x ≠ dotSeg ∧ x ≠ dotdot :=
      fun x hx => h x (by simp [hx])
    have h1 : ¬(c = [] ∨ c = dotSeg) := by simp [hne, hdot]
    have h2 : c ≠ dotdot ∨ (abs = false ∧ acc = []) ∨ acc.getLast? = some dotdot :=
      Or.inl hdd
    simp only [normCompsGo, if_neg h1, if_pos h2, ih hrest]
    simp

theorem resolveAbsGo_plain (comps : List Seg) (h : ∀ c ∈ comps, c ≠ dotdot) :
    ∀ acc : List Seg, resolveAbsGo acc comps = acc ++ comps := by
  induction comps with
  | nil => intro acc; simp [resolveAbsGo]
  | cons c rest ih =>
    intro acc
    have hc : c ≠ dotdot := h c (by simp)
    have hrest : ∀ x ∈ rest, x ≠ dotdot := fun x hx => h x (by simp [hx])
    simp only [resolveAbsGo, if_neg hc, ih hrest]
    simp

theorem resolveAbs_plain (segs : List Seg) (h : ∀ c ∈ segs, c ≠ dotdot) :
    resolveAbs segs = segs := by
  simpa using resolveAbsGo_plain segs h []

theorem pathChars_ne_nil (p : SPath) : pathChars p ≠ [] := by
  cases p with
  | nil => simp [pathChars]
  | cons x r => simp [pathChars, flat]

theorem initialSlashes_pathChars (segs : SPath) (h : ValidPath segs) :
    initialSlashes (pathChars segs) = 1 := by
  cases segs with
  | nil => rfl
  | cons x r =>
    obtain ⟨hne, hmem, -, -⟩ := h x (by simp)
    cases x with
    | nil => simp at hne
    | cons c x' =>
      have hc : c ≠ '/' := fun hceq => hmem (by simp [hceq])
      have : pathChars ((c :: x') :: r) = '/' :: c :: (x' ++ flat r) := by
        simp [pathChars, flat]
      rw [this]
      simp [initialSlashes, hc]

theorem normpath_pathChars (segs : SPath) (h : ValidPath segs) :
    normpathChars (pathChars segs) = pathChars segs := by
  have hne := pathChars_ne_nil segs
  have hk := initialSlashes_pathChars segs h
  cases segs with
  | nil =>
    rfl
  | cons x r =>
    have hfl : pathChars (x :: r) = flat (x :: r) := by simp [pathChars]
    have hsplit : splitSlash (flat (x :: r)) = [] :: x :: r :=
      splitSlash_flat (x :: r) (fun s hs => (h s hs).2.1)
    have hplain : ∀ c ∈ x :: r, c ≠ [] ∧ c ≠ dotSeg ∧ c ≠ dotdot := by
      intro c hc
      obtain ⟨h1, h2, h3, h4⟩ := h c hc
      exact ⟨h1, h3, h4⟩
    have hcomps : normCompsGo true [] ([] :: x :: r) = x :: r := by
      have : normCompsGo true [] ([] :: x :: r) = normCompsGo true [] (x :: r) := by
        simp [normCompsGo]
      rw [this, normCompsGo_plain (x :: r) hplain true []]
      simp
    rw [hfl] at hne hk
    rw [hfl]
    have hb : ((1 : Nat) != 0) = true := rfl
    have hjoin : List.replicate 1 '/' ++ joinSlash (x :: r) = flat (x :: r) := by
      rw [flat_eq_join (x :: r) (by simp)]; rfl
    have hfne : flat (x :: r) ≠ [] := by simp [flat]
    unfold normpathChars
    rw [if_neg hne]
    simp only [hk, hsplit, hb, hcomps, hjoin]
    simp [hfne]

theorem pathChars_contains_slash (p : SPath) :
    (pathChars p).contains '/' = true := by
  cases p with
  | nil => decide
  | cons x r => simp [pathChars, flat]

theorem pathChars_startsWith_slash (p : SPath) :
    startsWith (pathChars p) ['/'] = true := by
  cases p with
  | nil => decide
  | cons x r => simp [pathChars, flat, startsWith]

theorem startsWith_pathChars_append (b q : SPath) :
    startsWith (pathChars (b ++ q)) (pathChars b) = true := by
  cases b with
  | nil => simpa using pathChars_startsWith_slash q
  | cons x r =>
    have h0 : pathChars ((x :: r) ++ q) = flat ((x :: r) ++ q) := by
      simp [pathChars]
    have h1 : pathChars ((x :: r) ++ q) = flat (x :: r) ++ flat q := by
      rw [h0]; exact flat_append _ _
    have h2 : pathChars (x :: r) = flat (x :: r) := by simp [pathChars]
    rw [h1, h2]
    exact startsWith_append _ _

theorem dropWhile_flat (x : Seg) (r : List Seg) (h : ValidPath (x :: r)) :
    (flat (x :: r)).dropWhile (fun c => c = '/') = joinSlash (x :: r) := by
  obtain ⟨hne, hmem, -, -⟩ := h x (by simp)
  cases x with
  | nil => exact absurd rfl hne
  | cons c x' =>
    have hc : c ≠ '/' := fun hceq => hmem (by simp [hceq])
    have h1 : flat ((c :: x') :: r) = '/' :: c :: (x' ++ flat r) := by
      simp [flat]
    have h2 : joinSlash ((c :: x') :: r) = c :: (x' ++ flat r) := by
      cases r with
      | nil => simp [joinSlash, flat]
      | cons y s =>
        have h3 : flat (y :: s) = '/' :: joinSlash (y :: s) :=
          flat_eq_join _ (by simp)
        simp [joinSlash, h3]
    rw [h1, h2, List.dropWhile_cons, if_pos (by simp), List.dropWhile_cons,
      if_neg (by simp [hc])]

theorem filter_valid (segs : List Seg) (h : ValidPath segs) :
    segs.filter (fun c => ¬(c = [] ∨ c = dotSeg)) = segs := by
  induction segs with
  | nil => rfl
  | cons c rest ih =>
    obtain ⟨h1, -, h3, -⟩ := h c (by simp)
    have hrest : ValidPath rest := fun s hs => h s (by simp [hs])
    rw [List.filter_cons, if_pos (by simp [h1, h3]), ih hrest]

theorem parseParts_join (segs : List Seg) (hne : segs ≠ []) (h : ValidPath segs) :
    parseParts (joinSlash segs) = segs := by
  unfold parseParts
  rw [splitSlash_join segs hne (fun s hs => (h s hs).2.1)]
  exact filter_valid segs h

theorem validPath_no_dotdot (segs : SPath) (h : ValidPath segs) :
    ∀ c ∈ segs, c ≠ dotdot := fun c hc => (h c hc).2.2.2

/-- Re-resolving a canonical absolute path string re-roots it under the
sandbox: `resolve_secure_path` strips the leading separator and joins the
remainder below `base`, so the result is `base ++ segs`, not `segs`. -/
theorem resolve_reroot (base segs : SPath) (hb : ValidPath base)
    (hs : ValidPath segs) :
    resolve_secure_path base (pathChars segs) = .ok (base ++ segs) := by
  have hnorm := normpath_pathChars segs hs
  have hcond : ((pathChars segs).contains '/' &&
      startsWith (pathChars segs) ['/']) = true := by
    rw [pathChars_contains_slash, pathChars_startsWith_slash]; rfl
  have hbase : resolveAbs base = base :=
    resolveAbs_plain base (validPath_no_dotdot base hb)
  have hparse : parseParts ((pathChars segs).dropWhile (fun c => c = '/')) = segs := by
    cases segs with
    | nil => rfl
    | cons x r =>
      have hfl : pathChars (x :: r) = flat (x :: r) := by simp [pathChars]
      rw [hfl, dropWhile_flat x r hs]
      exact parseParts_join (x :: r) (by simp) hs
  have hfull : resolveAbs (base ++ segs) = base ++ segs := by
    apply resolveAbs_plain
    intro c hc
    rcases List.mem_append.mp hc with hcb | hcs
    · exact validPath_no_dotdot base hb c hcb
    · exact validPath_no_dotdot segs hs c hcs
  have hcheck := startsWith_pathChars_append base segs
  simp only [resolve_secure_path, hnorm, hcond, if_pos, hparse, hbase, hfull, hcheck,
    if_true]

/-! ### Archive lemmas -/

theorem streamLoop_ok (cfg : ArchiveConfig) :
    ∀ remaining total written, total + remaining ≤ cfg.zipMaxTotalSize →
      streamLoop cfg remaining total written = (written + remaining, true) := by
  intro remaining
  induction remaining using Nat.strong_induction_on with
  | _ remaining ih =>
    intro total written hle
    rw [streamLoop]
    by_cases h0 : remaining = 0
    · simp [h0]
    · rw [dif_neg h0]
      have hch : 0 < min 8192 remaining := by omega
      have hcr : min 8192 remaining ≤ remaining := by omega
      rw [if_neg (by omega)]
      rw [ih (remaining - min 8192 remaining) (by omega) _ _ (by omega)]
      simp only [Prod.mk.injEq]
      exact ⟨by omega, trivial⟩

theorem streamLoop_fail (cfg : ArchiveConfig) :
    ∀ remaining total written, total = written →
      written ≤ cfg.zipMaxTotalSize → cfg.zipMaxTotalSize < total + remaining →
      (streamLoop cfg remaining total written).2 = false ∧
      (streamLoop cfg remaining total written).1 ≤ cfg.zipMaxTotalSize := by
  intro remaining
  induction remaining using Nat.strong_induction_on with
  | _ remaining ih =>
    intro total written heq hwle hgt
    rw [streamLoop]
    by_cases h0 : remaining = 0
    · omega
    · rw [dif_neg h0]
      have hch : 0 < min 8192 remaining := by omega
      have hcr : min 8192 remaining ≤ remaining := by omega
      by_cases hc : total + min 8192 remaining > cfg.zipMaxTotalSize
      · rw [if_pos hc]
        exact ⟨rfl, hwle⟩
      · rw [if_neg hc]
        exact ih (remaining - min 8192 remaining) (by omega) _ _ (by omega)
          (by omega) (by omega)

theorem streamEntry_ok (cfg : ArchiveConfig) (n : Nat)
    (h : n ≤ cfg.zipMaxTotalSize) : streamEntry cfg n = (n, true) := by
  have := streamLoop_ok cfg n 0 0 (by omega)
  simpa [streamEntry] using this

theorem streamEntry_fail (cfg : ArchiveConfig) (n : Nat)
    (h : cfg.zipMaxTotalSize < n) :
    (streamEntry cfg n).2 = false ∧
    (streamEntry cfg n).1 ≤ cfg.zipMaxTotalSize := by
  have := streamLoop_fail cfg n 0 0 rfl (by omega) (by omega)
  simpa [streamEntry] using this

theorem streamEntry_written_le (cfg : ArchiveConfig) (n : Nat) :
    (streamEntry cfg n).1 ≤ cfg.zipMaxTotalSize := by
  by_cases h : n ≤ cfg.zipMaxTotalSize
  · rw [streamEntry_ok cfg n h]; exact h
  · exact (streamEntry_fail cfg n (by omega)).2

theorem streamEntry_ok_iff (cfg : ArchiveConfig) (n : Nat) :
    (streamEntry cfg n).2 = true ↔ n ≤ cfg.zipMaxTotalSize := by
  by_cases h : n ≤ cfg.zipMaxTotalSize
  · rw [streamEntry_ok cfg n h]; simpa using h
  · have := (streamEntry_fail cfg n (by omega)).1
    rw [this]
    simp
    omega

theorem extractOne_zipSlip (cfg : ArchiveConfig) (base destR : SPath)
    (e : ZEntry) (d : Nat) (h : zipSlipName e.entryName = true) :
    extractOne cfg base destR e d = (0, .error .zipSlip) := by
  rw [extractOne, if_pos h]

theorem extractEntries_err_of_mem (cfg : ArchiveConfig) (base destR : SPath)
    (d : Nat) :
    ∀ (entries : List ZEntry) (e : ZEntry), e ∈ entries →
      exceptIsOk (extractOne cfg base destR e d).2 = false →
      exceptIsOk (extractEntries cfg base destR entries d).2 = false := by
  intro entries
  induction entries with
  | nil => intro e he; simp at he
  | cons a rest ih =>
    intro e he herr
    rw [extractEntries]
    rcases List.mem_cons.mp he with rfl | hmem
    · match h1 : extractOne cfg base destR e d with
      | (w, .error err) => rfl
      | (w, .ok fs) => rw [h1] at herr; simp [exceptIsOk] at herr
    · match h1 : extractOne cfg base destR a d with
      | (w, .error err) => rfl
      | (w, .ok fs) =>
        have := ih e hmem herr
        match h2 : extractEntries cfg base destR rest d with
        | (w2, .error err2) => rfl
        | (w2, .ok fs2) => rw [h2] at this; simp [exceptIsOk] at this

theorem validate_single_zero (cfg : ArchiveConfig) (name : List Char)
    (hf : 1 ≤ cfg.zipMaxFiles) :
    validate_zip_file cfg [⟨name, 0, 0⟩] = .ok (1, 0, 0) := by
  have hent : validate_zip_entry cfg ⟨name, 0, 0⟩ = .ok () := rfl
  unfold validate_zip_file
  rw [validateLoop]
  simp only [hent]
  rw [if_neg (by omega), if_neg (by omega)]
  rfl

theorem validPath_append (a b : SPath) (ha : ValidPath a) (hb : ValidPath b) :
    ValidPath (a ++ b) := by
  intro s hs
  rcases List.mem_append.mp hs with h | h
  · exact ha s h
  · exact hb s h

theorem resolveAbs_valid_concat (destR : SPath) (x : Seg)
    (hdest : ValidPath destR) (hx : ValidSeg x) :
    resolveAbs (destR ++ [x]) = destR ++ [x] := by
  apply resolveAbs_plain
  intro c hc
  rcases List.mem_append.mp hc with h | h
  · exact (hdest c h).2.2.2
  · simp at h
    subst h
    exact hx.2.2.2

theorem extractOne_plain_file (cfg : ArchiveConfig) (base destR : SPath)
    (hdest : ValidPath destR) (d : Nat) :
    extractOne cfg base destR (.file (strChars "f.txt") 0 0 0) d =
      (0, .ok [destR ++ [strChars "f.txt"]]) := by
  have hname : ZEntry.entryName (.file (strChars "f.txt") 0 0 0) =
      strChars "f.txt" := rfl
  have hslip : zipSlipName (strChars "f.txt") = false := by decide
  have hparse : parseParts (strChars "f.txt") = [strChars "f.txt"] := by decide
  have hres : resolveAbs (destR ++ [strChars "f.txt"]) =
      destR ++ [strChars "f.txt"] :=
    resolveAbs_valid_concat destR _ hdest (by decide)
  have hsw : startsWith (pathChars (destR ++ [strChars "f.txt"]))
      (pathChars destR) = true := startsWith_pathChars_append destR _
  have hval : validate_zip_entry cfg
      (ZEntry.meta (.file (strChars "f.txt") 0 0 0)) = .ok () := rfl
  have hslash : endsWithSlash (strChars "f.txt") = false := by decide
  have hzip : isZipSuffix (strChars "f.txt") = false := by decide
  have hstream : streamEntry cfg 0 = (0, true) :=
    streamEntry_ok cfg 0 (Nat.zero_le _)
  rw [extractOne]
  simp only [hname, hslip, Bool.false_eq_true, if_false, hparse, hres, hsw,
    hval, hslash, hzip, hstream]
  simp

theorem extractOne_nested_ok (cfg : ArchiveConfig) (base destR : SPath)
    (hdest : ValidPath destR) (d : Nat) (inner : List ZEntry)
    (w2 : Nat) (fs : List SPath)
    (hrec : safe_extract_zip cfg base (destR ++ [strChars "a"]) inner d =
      (w2, .ok fs)) :
    extractOne cfg base destR (.nest (strChars "a.zip") 0 0 0 inner) d =
      (w2, .ok ((destR ++ [strChars "a.zip"]) :: fs)) := by
  have hname : ZEntry.entryName (.nest (strChars "a.zip") 0 0 0 inner) =
      strChars "a.zip" := rfl
  have hslip : zipSlipName (strChars "a.zip") = false := by decide
  have hparse : parseParts (strChars "a.zip") = [strChars "a.zip"] := by decide
  have hres : resolveAbs (destR ++ [strChars "a.zip"]) =
      destR ++ [strChars "a.zip"] :=
    resolveAbs_valid_concat destR _ hdest (by decide)
  have hsw : startsWith (pathChars (destR ++ [strChars "a.zip"]))
      (pathChars destR) = true := startsWith_pathChars_append destR _
  have hval : validate_zip_entry cfg
      (ZEntry.meta (.nest (strChars "a.zip") 0 0 0 inner)) = .ok () := rfl
  have hslash : endsWithSlash (strChars "a.zip") = false := by decide
  have hzip : isZipSuffix (strChars "a.zip") = true := by decide
  have hstream : streamEntry cfg 0 = (0, true) :=
    streamEntry_ok cfg 0 (Nat.zero_le _)
  have hdrop : (destR ++ [strChars "a.zip"]).dropLast = destR := by
    simp
  have hlast : (destR ++ [strChars "a.zip"]).getLast?.getD [] =
      strChars "a.zip" := by
    simp
  have hstem : stemChars (strChars "a.zip") = strChars "a" := by decide
  rw [extractOne]
  simp only [hname, hslip, Bool.false_eq_true, if_false, hparse, hres, hsw,
    hval, hslash, hzip, hstream, hdrop, hlast, hstem, hrec]
  simp

theorem extractOne_nested_err (cfg : ArchiveConfig) (base destR : SPath)
    (hdest : ValidPath destR) (d : Nat) (inner : List ZEntry)
    (w2 : Nat) (err : AErr)
    (hrec : safe_extract_zip cfg base (destR ++ [strChars "a"]) inner d =
      (w2, .error err)) :
    extractOne cfg base destR (.nest (strChars "a.zip") 0 0 0 inner) d =
      (w2, .error err) := by
  have hname : ZEntry.entryName (.nest (strChars "a.zip") 0 0 0 inner) =
      strChars "a.zip" := rfl
  have hslip : zipSlipName (strChars "a.zip") = false := by decide
  have hparse : parseParts (strChars "a.zip") = [strChars "a.zip"] := by decide
  have hres : resolveAbs (destR ++ [strChars "a.zip"]) =
      destR ++ [strChars "a.zip"] :=
    resolveAbs_valid_concat destR _ hdest (by decide)
  have hsw : startsWith (pathChars (destR ++ [strChars "a.zip"]))
      (pathChars destR) = true := startsWith_pathChars_append destR _
  have hval : validate_zip_entry cfg
      (ZEntry.meta (.nest (strChars "a.zip") 0 0 0 inner)) = .ok () := rfl
  have hslash : endsWithSlash (strChars "a.zip") = false := by decide
  have hzip : isZipSuffix (strChars "a.zip") = true := by decide
  have hstream : streamEntry cfg 0 = (0, true) :=
    streamEntry_ok cfg 0 (Nat.zero_le _)
  have hdrop : (destR ++ [strChars "a.zip"]).dropLast = destR := by
    simp
  have hlast : (destR ++ [strChars "a.zip"]).getLast?.getD [] =
      strChars "a.zip" := by
    simp
  have hstem : stemChars (strChars "a.zip") = strChars "a" := by decide
  rw [extractOne]
  simp only [hname, hslip, Bool.false_eq_true, if_false, hparse, hres, hsw,
    hval, hslash, hzip, hstream, hdrop, hlast, hstem, hrec]
  simp

theorem validSeg_a : ValidSeg (strChars "a") := by decide

theorem chain_extract_ok (cfg : ArchiveConfig) (hf : 1 ≤ cfg.zipMaxFiles)
    (base : SPath) (hb : ValidPath base) :
    ∀ k D dest, ValidPath dest → k < D →
      ∃ w fs, safe_extract_zip cfg base dest (chainZip k) D = (w, .ok fs) := by
  intro k
  induction k with
  | zero =>
    intro D dest hdest hk
    match D, hk with
    | d + 1, _ =>
      have hdr : ValidPath (base ++ dest) := validPath_append base dest hb hdest
      refine ⟨0, [(base ++ dest) ++ [strChars "f.txt"]], ?_⟩
      simp only [chainZip, safe_extract_zip, List.map_cons, List.map_nil,
        ZEntry.meta]
      rw [validate_single_zero cfg _ hf]
      rw [extractEntries, extractOne_plain_file cfg base (base ++ dest) hdr d]
      rw [extractEntries]
      simp
  | succ k' ih =>
    intro D dest hdest hk
    match D, hk with
    | d + 1, _ =>
      have hdr : ValidPath (base ++ dest) := validPath_append base dest hb hdest
      have hchild : ValidPath ((base ++ dest) ++ [strChars "a"]) := by
        apply validPath_append _ _ hdr
        intro s hs
        simp at hs
        subst hs
        exact validSeg_a
      obtain ⟨w, fs, hrec⟩ := ih d ((base ++ dest) ++ [strChars "a"]) hchild
        (by omega)
      refine ⟨w, ((base ++ dest) ++ [strChars "a.zip"]) :: fs, ?_⟩
      simp only [chainZip, safe_extract_zip, List.map_cons, List.map_nil,
        ZEntry.meta]
      rw [validate_single_zero cfg _ hf]
      rw [extractEntries,
        extractOne_nested_ok cfg base (base ++ dest) hdr d (chainZip k') w fs hrec]
      rw [extractEntries]
      simp

theorem chain_extract_depthErr (cfg : ArchiveConfig) (hf : 1 ≤ cfg.zipMaxFiles)
    (base : SPath) (hb : ValidPath base) :
    ∀ k D dest, ValidPath dest → D ≤ k →
      ∃ w, safe_extract_zip cfg base dest (chainZip k) D =
        (w, .error .depthExceeded) := by
  intro k
  induction k with
  | zero =>
    intro D dest hdest hk
    match D, hk with
    | 0, _ => exact ⟨0, by rw [safe_extract_zip]⟩
  | succ k' ih =>
    intro D dest hdest hk
    match D with
    | 0 => exact ⟨0, by rw [safe_extract_zip]⟩
    | d + 1 =>
      have hdr : ValidPath (base ++ dest) := validPath_append base dest hb hdest
      have hchild : ValidPath ((base ++ dest) ++ [strChars "a"]) := by
        apply validPath_append _ _ hdr
        intro s hs
        simp at hs
        subst hs
        exact validSeg_a
      obtain ⟨w, hrec⟩ := ih d ((base ++ dest) ++ [strChars "a"]) hchild
        (by omega)
      refine ⟨w, ?_⟩
      simp only [chainZip, safe_extract_zip, List.map_cons, List.map_nil,
        ZEntry.meta]
      rw [validate_single_zero cfg _ hf]
      rw [extractEntries,
        extractOne_nested_err cfg base (base ++ dest) hdr d (chainZip k') w
          .depthExceeded hrec]

/-! ### Lock manager lemmas -/

theorem leChars_total (a : List Char) :
    ∀ b, leChars a b = true ∨ leChars b a = true := by
  induction a with
  | nil => intro b; left; rfl
  | cons x xs ih =>
    intro b
    cases b with
    | nil => right; rfl
    | cons y ys =>
      by_cases hxy : x = y
      · subst hxy
        rcases ih ys with h | h
        · left; simp [leChars, h]
        · right; simp [leChars, h]
      · rcases lt_trichotomy x y with h | h | h
        · left; simp [leChars, hxy, h]
        · exact absurd h hxy
        · right
          have hyx : y ≠ x := fun hh => hxy hh.symm
          simp [leChars, hyx, h]

theorem leChars_trans (a : List Char) :
    ∀ b c, leChars a b = true → leChars b c = true → leChars a c = true := by
  induction a with
  | nil => intro b c _ _; rfl
  | cons x xs ih =>
    intro b c h1 h2
    cases b with
    | nil => simp [leChars] at h1
    | cons y ys =>
      cases c with
      | nil => simp [leChars] at h2
      | cons z zs =>
        by_cases hxy : x = y <;> by_cases hyz : y = z
        · subst hxy; subst hyz
          simp only [leChars, if_pos rfl] at h1 h2 ⊢
          exact ih ys zs h1 h2
        · subst hxy
          simp only [leChars, if_pos rfl, if_neg hyz] at h2 ⊢
          exact h2
        · subst hyz
          simp only [leChars, if_neg hxy] at h1 ⊢
          exact h1
        · simp only [leChars, if_neg hxy, decide_eq_true_eq] at h1
          simp only [leChars, if_neg hyz, decide_eq_true_eq] at h2
          have hxz : x < z := lt_trans h1 h2
          simp [leChars, ne_of_lt hxz, hxz]

theorem mem_insertSorted (k x : List Char) :
    ∀ l, x ∈ insertSorted k l ↔ x = k ∨ x ∈ l := by
  intro l
  induction l with
  | nil => simp [insertSorted]
  | cons a as ih =>
    by_cases h : leChars k a = true
    · simp [insertSorted, h]
    · simp only [insertSorted, if_neg h, List.mem_cons, ih]
      tauto

theorem pairwise_insertSorted (k : List Char) :
    ∀ l, List.Pairwise (fun a b => leChars a b = true) l →
      List.Pairwise (fun a b => leChars a b = true) (insertSorted k l) := by
  intro l
  induction l with
  | nil => intro _; simp [insertSorted]
  | cons a as ih =>
    intro hp
    rw [List.pairwise_cons] at hp
    obtain ⟨ha, has⟩ := hp
    by_cases h : leChars k a = true
    · rw [insertSorted, if_pos h, List.pairwise_cons]
      refine ⟨?_, ?_⟩
      · intro b hb
        rcases List.mem_cons.mp hb with rfl | hbas
        · exact h
        · exact leChars_trans k a b h (ha b hbas)
      · rw [List.pairwise_cons]
        exact ⟨ha, has⟩
    · have hak : leChars a k = true := by
        rcases leChars_total k a with h' | h'
        · exact absurd h' h
        · exact h'
      rw [insertSorted, if_neg h, List.pairwise_cons]
      refine ⟨?_, ih has⟩
      intro b hb
      rcases (mem_insertSorted k b as).mp hb with rfl | hbas
      · exact hak
      · exact ha b hbas

theorem sortKeys_sorted (l : List (List Char)) :
    List.Pairwise (fun a b => leChars a b = true) (sortKeys l) := by
  induction l with
  | nil => simp [sortKeys]
  | cons x xs ih => exact pairwise_insertSorted x (sortKeys xs) ih

theorem insertSorted_perm (k : List Char) :
    ∀ l, List.Perm (insertSorted k l) (k :: l) := by
  intro l
  induction l with
  | nil => rfl
  | cons a as ih =>
    by_cases h : leChars k a = true
    · rw [insertSorted, if_pos h]
    · rw [insertSorted, if_neg h]
      exact List.Perm.trans (List.Perm.cons a ih) (List.Perm.swap k a as)

theorem sortKeys_perm (l : List (List Char)) : List.Perm (sortKeys l) l := by
  induction l with
  | nil => rfl
  | cons x xs ih =>
    exact List.Perm.trans (insertSorted_perm x (sortKeys xs))
      (List.Perm.cons x ih)

theorem acquireLoop_take (busy : List Char → Bool) :
    ∀ ks, (acquireLoop busy ks).1 =
      ks.take (acquireLoop busy ks).1.length := by
  intro ks
  induction ks with
  | nil => rfl
  | cons k rest ih =>
    rw [acquireLoop]
    by_cases h : busy k = true
    · simp [h]
    · rw [if_neg h]
      match hr : acquireLoop busy rest with
      | (acq, timedOut) =>
        rw [hr] at ih
        simpa using ih

theorem acquireLoop_none_eq (busy : List Char → Bool) :
    ∀ ks, (acquireLoop busy ks).2 = none → (acquireLoop busy ks).1 = ks := by
  intro ks
  induction ks with
  | nil => intro _; rfl
  | cons k rest ih =>
    intro hnone
    rw [acquireLoop] at hnone ⊢
    by_cases h : busy k = true
    · rw [if_pos h] at hnone; simp at hnone
    · rw [if_neg h] at hnone ⊢
      match hr : acquireLoop busy rest with
      | (acq, timedOut) =>
        rw [hr] at hnone ih
        have hacq : acq = rest := ih hnone
        simp [hacq]

theorem acquireLoop_some_short (busy : List Char → Bool) :
    ∀ ks k, (acquireLoop busy ks).2 = some k →
      (acquireLoop busy ks).1.length < ks.length := by
  intro ks
  induction ks with
  | nil => intro k h; simp [acquireLoop] at h
  | cons a rest ih =>
    intro k h
    rw [acquireLoop] at h ⊢
    by_cases hb : busy a = true
    · rw [if_pos hb] at h ⊢
      simp
    · rw [if_neg hb] at h ⊢
      match hr : acquireLoop busy rest with
      | (acq, timedOut) =>
        rw [hr] at h ih
        simp at h
        subst h
        have := ih k rfl
        simpa using Nat.succ_lt_succ this

/-! ### Write-protocol and generic extraction helpers -/

theorem cleanupTemp_target (st : FState) :
    (cleanupTemp st).target = st.target := by
  unfold cleanupTemp
  cases h : st.temp <;> rfl

theorem cleanupTemp_temp (st : FState) : (cleanupTemp st).temp = none := by
  unfold cleanupTemp
  cases h : st.temp
  · simpa using h
  · rfl

theorem extractOne_file_ok (cfg : ArchiveConfig) (base destR : SPath)
    (hdest : ValidPath destR) (d n fsz csz : Nat) (name : List Char)
    (hslip : zipSlipName name = false) (hparse : parseParts name = [name])
    (hx : ValidSeg name) (hslash : endsWithSlash name = false)
    (hzip : isZipSuffix name = false)
    (hval : validate_zip_entry cfg ⟨name, fsz, csz⟩ = .ok ())
    (hn : n ≤ cfg.zipMaxTotalSize) :
    extractOne cfg base destR (.file name fsz csz n) d =
      (n, .ok [destR ++ [name]]) := by
  have hname : ZEntry.entryName (.file name fsz csz n) = name := rfl
  have hmeta : ZEntry.meta (.file name fsz csz n) = ⟨name, fsz, csz⟩ := rfl
  have hres : resolveAbs (destR ++ [name]) = destR ++ [name] :=
    resolveAbs_valid_concat destR _ hdest hx
  have hsw : startsWith (pathChars (destR ++ [name])) (pathChars destR) =
      true := startsWith_pathChars_append destR _
  have hstream : streamEntry cfg n = (n, true) := streamEntry_ok cfg n hn
  rw [extractOne]
  simp only [hname, hmeta, hslip, Bool.false_eq_true, if_false, hparse, hres,
    hsw, hval, hslash, hzip, hstream]
  simp

theorem extractOne_file_fail (cfg : ArchiveConfig) (base destR : SPath)
    (hdest : ValidPath destR) (d n fsz csz : Nat) (name : List Char)
    (hslip : zipSlipName name = false) (hparse : parseParts name = [name])
    (hx : ValidSeg name) (hslash : endsWithSlash name = false)
    (hval : validate_zip_entry cfg ⟨name, fsz, csz⟩ = .ok ())
    (hn : cfg.zipMaxTotalSize < n) :
    extractOne cfg base destR (.file name fsz csz n) d =
      ((streamEntry cfg n).1, .error .extractTooLarge) := by
  have hname : ZEntry.entryName (.file name fsz csz n) = name := rfl
  have hmeta : ZEntry.meta (.file name fsz csz n) = ⟨name, fsz, csz⟩ := rfl
  have hres : resolveAbs (destR ++ [name]) = destR ++ [name] :=
    resolveAbs_valid_concat destR _ hdest hx
  have hsw : startsWith (pathChars (destR ++ [name])) (pathChars destR) =
      true := startsWith_pathChars_append destR _
  have hstream : streamEntry cfg n = ((streamEntry cfg n).1, false) := by
    have := (streamEntry_fail cfg n hn).1
    exact Prod.ext rfl this
  rw [extractOne]
  rw [hname]
  simp only [hmeta, hslip, Bool.false_eq_true, if_false, hparse, hres,
    hsw, hval, hslash]
  rw [hstream]
  simp

/-! ### Claim theorems -/

/-- C1: the spec claims every path returned by `resolve_secure_path` lies
inside the sandbox (canonical string equal to the root's, or extending it
past a separator).  The code checks a bare `str.startswith` with no
separator requirement, so under root `/srv/sandbox` the input
`../sandboxx/secret` is accepted and resolves to `/srv/sandboxx/secret`,
which is outside the sandbox: the claimed containment is violated. -/
theorem C1_escape_at_failing_input :
    resolve_secure_path demoBase (strChars "../sandboxx/secret") =
      .ok [strChars "srv", strChars "sandboxx", strChars "secret"] ∧
    claimedInside demoBase
      [strChars "srv", strChars "sandboxx", strChars "secret"] = false :=
  ⟨rfl, by decide⟩

/-- C2 counterexample: the claim says every input with an absolute prefix
fails with `SecurityViolation`; instead `/etc/passwd` is accepted — the
leading separator is stripped and the path resolves inside the sandbox. -/
theorem C2_absolute_prefix_accepted :
    resolve_secure_path demoBase (strChars "/etc/passwd") =
      .ok (demoBase ++ [strChars "etc", strChars "passwd"]) := rfl

/-- C2 (amended): under root `/srv/sandbox`, a parent-directory segment
that survives normalisation and escapes the root's string prefix is
rejected (`a/../../etc/passwd`); an absolute prefix is stripped and the
path is resolved inside the sandbox (`/etc/passwd` →
`/srv/sandbox/etc/passwd`); redundant segments that cancel internally are
collapsed and accepted (`a/./b/../../c` → `/srv/sandbox/c`). -/
theorem C2_amended_examples :
    resolve_secure_path demoBase (strChars "a/../../etc/passwd") =
      .error .securityViolation ∧
    resolve_secure_path demoBase (strChars "/etc/passwd") =
      .ok (demoBase ++ [strChars "etc", strChars "passwd"]) ∧
    resolve_secure_path demoBase (strChars "a/./b/../../c") =
      .ok (demoBase ++ [strChars "c"]) :=
  ⟨rfl, rfl, rfl⟩

/-- C3 counterexample: re-resolving the canonical string of a resolved
path is not idempotent: `resolve("a") = /srv/sandbox/a`, but resolving
`/srv/sandbox/a` again yields `/srv/sandbox/srv/sandbox/a`. -/
theorem C3_reresolve_not_idempotent :
    resolve_secure_path demoBase (strChars "a") =
      .ok (demoBase ++ [strChars "a"]) ∧
    resolve_secure_path demoBase (pathChars (demoBase ++ [strChars "a"])) =
      .ok (demoBase ++ (demoBase ++ [strChars "a"])) ∧
    demoBase ++ (demoBase ++ [strChars "a"]) ≠ demoBase ++ [strChars "a"] :=
  ⟨rfl, rfl, by decide⟩

/-- C3 (amended): re-resolving the canonical absolute string form of any
well-formed path does not repeat it — it re-roots it under the sandbox
(`resolve(str(p)) = base ++ p`), which differs from `p` for every
nonempty sandbox root; so `resolve` is not idempotent on canonical
absolute strings. -/
theorem C3_amended_reroot (base r : SPath) (hb : ValidPath base)
    (hr : ValidPath r) (hne : base ≠ []) :
    resolve_secure_path base (pathChars r) = .ok (base ++ r) ∧
    base ++ r ≠ r := by
  refine ⟨resolve_reroot base r hb hr, ?_⟩
  intro heq
  have hlen := congrArg List.length heq
  simp only [List.length_append] at hlen
  have : base.length = 0 := by omega
  exact hne (List.length_eq_zero.mp this)

/-- Witness for C3 (amended) at `/srv/sandbox` and `r = [a]`. -/
theorem C3_amended_reroot_witness :
    resolve_secure_path demoBase (pathChars (demoBase ++ [strChars "a"])) =
      .ok (demoBase ++ (demoBase ++ [strChars "a"])) ∧
    demoBase ++ (demoBase ++ [strChars "a"]) ≠ demoBase ++ [strChars "a"] :=
  C3_amended_reroot demoBase (demoBase ++ [strChars "a"]) (by decide)
    (by decide) (by decide)

/-- C6: the claim says the pre-flight walk fails with `QuotaExceeded`
whenever either cap is exceeded by any combination of file and directory
sources.  The two quota checks sit only inside the directory branch of the
walk, so sources that are plain files are accumulated but never checked:
two plain files pass a file-count cap of 1, and one 101-byte file passes a
100-byte size cap, while the identical totals reached through a directory
source are rejected; a missing source is rejected as claimed. -/
theorem C6_caps_unchecked_for_file_sources :
    safe_create_zip c6cfg [.file 1, .file 1] = .ok () ∧
    safe_create_zip c6cfg [.file 101] = .ok () ∧
    safe_create_zip c6cfg [.dir [1, 1]] = .error .tooManyFiles ∧
    safe_create_zip c6cfg [.missing] = .error .sourceMissing :=
  ⟨rfl, rfl, rfl, rfl⟩

/-- C7: any entry with nonzero compressed size whose declared
uncompressed/compressed ratio exceeds the configured ceiling is rejected
by `validate_zip_entry` with the zip-bomb (`QuotaExceeded`) error. -/
theorem C7_ratio_rejected (cfg : ArchiveConfig) (entry : ZMeta)
    (hc : 0 < entry.compress_size)
    (hr : (entry.file_size : ℚ) / (entry.compress_size : ℚ) > cfg.ratioLimit) :
    validate_zip_entry cfg entry = .error .ratioExceeded := by
  unfold validate_zip_entry
  rw [if_pos hc, if_pos hr]

/-- Witness for C7: compressed 100 bytes, uncompressed 100000 bytes,
ceiling 100 (ratio 1000 > 100). -/
theorem C7_ratio_rejected_witness :
    validate_zip_entry defaultConfig ⟨strChars "bomb.bin", 100000, 100⟩ =
      .error .ratioExceeded :=
  C7_ratio_rejected defaultConfig ⟨strChars "bomb.bin", 100000, 100⟩
    (by decide) (by norm_num [defaultConfig])

/-- C9: `write_file` with append is read-concatenate-atomically-replace,
and is all-or-nothing: on success the target holds old ++ new and the
staging file is gone; on a failure injected at any point before the rename
completes, the staging file is removed and the target still holds exactly
its prior content. -/
theorem C9_append_all_or_nothing (st : FState) (content old : List Char)
    (h : st.target = some old) :
    write_file_append st content .noFail =
      ({ target := some (old ++ content), temp := none },
        .ok (old ++ content).length) ∧
    ∀ fail, fail ≠ WFail.noFail →
      (write_file_append st content fail).1.target = some old ∧
      (write_file_append st content fail).1.temp = none ∧
      (write_file_append st content fail).2 = .error .ioFailure := by
  constructor
  · rw [write_file_append, h]
  · intro fail hne
    cases fail with
    | noFail => exact absurd rfl hne
    | atRead =>
      rw [write_file_append, h]
      exact ⟨by rw [cleanupTemp_target, h], cleanupTemp_temp st, rfl⟩
    | atWriteTemp part =>
      rw [write_file_append, h]
      refine ⟨?_, cleanupTemp_temp _, rfl⟩
      rw [cleanupTemp_target]
    | atReplace =>
      rw [write_file_append, h]
      refine ⟨?_, cleanupTemp_temp _, rfl⟩
      rw [cleanupTemp_target]

/-- Witness for C9 at target content `ab`, appended content `c`, with a
leftover staging file present before the call. -/
theorem C9_append_all_or_nothing_witness :
    write_file_append ⟨some (strChars "ab"), some (strChars "junk")⟩
        (strChars "c") .noFail =
      ({ target := some (strChars "ab" ++ strChars "c"), temp := none },
        .ok (strChars "ab" ++ strChars "c").length) ∧
    ∀ fail, fail ≠ WFail.noFail →
      (write_file_append ⟨some (strChars "ab"), some (strChars "junk")⟩
        (strChars "c") fail).1.target = some (strChars "ab") ∧
      (write_file_append ⟨some (strChars "ab"), some (strChars "junk")⟩
        (strChars "c") fail).1.temp = none ∧
      (write_file_append ⟨some (strChars "ab"), some (strChars "junk")⟩
        (strChars "c") fail).2 = .error .ioFailure :=
  C9_append_all_or_nothing ⟨some (strChars "ab"), some (strChars "junk")⟩
    (strChars "c") (strChars "ab") rfl

theorem safe_extract_zip_ok_case (cfg : ArchiveConfig) (base dest : SPath)
    (entries : List ZEntry) (d : Nat) (v : Nat × Nat × Nat)
    (hv : validate_zip_file cfg (entries.map ZEntry.meta) = .ok v) :
    safe_extract_zip cfg base dest entries (d + 1) =
      extractEntries cfg base (base ++ dest) entries d := by
  rw [safe_extract_zip, hv]

/-- C4: an entry whose stored name is absolute or contains a `..` segment
is rejected with the zip-slip `SecurityViolation` the moment it is
processed — zero bytes written for it, whatever its declared compressed
and uncompressed sizes — and an extraction whose archive contains such an
entry never succeeds, at any recursion depth. -/
theorem C4_zip_slip_rejected (cfg : ArchiveConfig) (base dest destR : SPath)
    (entries : List ZEntry) (d maxDepth : Nat) (e : ZEntry)
    (hname : zipSlipName e.entryName = true) (he : e ∈ entries) :
    extractOne cfg base destR e d = (0, .error .zipSlip) ∧
    exceptIsOk (safe_extract_zip cfg base dest entries maxDepth).2 = false := by
  refine ⟨extractOne_zipSlip cfg base destR e d hname, ?_⟩
  match maxDepth with
  | 0 =>
    rw [safe_extract_zip]
    rfl
  | d' + 1 =>
    rw [safe_extract_zip]
    match hv : validate_zip_file cfg (entries.map ZEntry.meta) with
    | .error err => rfl
    | .ok v =>
      show exceptIsOk (extractEntries cfg base (base ++ dest) entries d').2 =
        false
      apply extractEntries_err_of_mem cfg base (base ++ dest) d' entries e he
      rw [extractOne_zipSlip cfg base (base ++ dest) e d' hname]
      rfl

/-- Witness for C4 at the spec's entry `../../outside.txt` with declared
sizes 100000/100, inside a singleton archive at depth 5. -/
theorem C4_zip_slip_rejected_witness :
    extractOne defaultConfig demoBase (demoBase ++ [strChars "out"])
      (.file (strChars "../../outside.txt") 100000 100 0) 4 =
      (0, .error .zipSlip) ∧
    exceptIsOk (safe_extract_zip defaultConfig demoBase [strChars "out"]
      [.file (strChars "../../outside.txt") 100000 100 0] 5).2 = false :=
  C4_zip_slip_rejected defaultConfig demoBase [strChars "out"]
    (demoBase ++ [strChars "out"]) [.file (strChars "../../outside.txt") 100000 100 0]
    4 5 (.file (strChars "../../outside.txt") 100000 100 0) (by decide) (by simp)

/-- C5 counterexample: the per-entry reset of the streaming counter means
the global size cap does not bound the bytes written across entries: with
a 10-byte cap, two entries of actual size 10 each extract successfully and
20 bytes are written — the claimed failure the instant the running total
of the extraction would exceed the cap does not happen. -/
theorem C5_cap_not_global :
    safe_extract_zip c5cfg demoBase [strChars "out"] c5entries 5 =
      (20, .ok [demoBase ++ [strChars "out"] ++ [strChars "a.txt"],
        demoBase ++ [strChars "out"] ++ [strChars "b.txt"]]) ∧
    c5cfg.zipMaxTotalSize < 20 := by
  constructor
  · have hdr : ValidPath (demoBase ++ [strChars "out"]) := by decide
    have ha := extractOne_file_ok c5cfg demoBase
      (demoBase ++ [strChars "out"]) hdr 4 10 0 0 (strChars "a.txt")
      (by decide) (by decide) (by decide) (by decide) (by decide) rfl
      (by decide)
    have hb := extractOne_file_ok c5cfg demoBase
      (demoBase ++ [strChars "out"]) hdr 4 10 0 0 (strChars "b.txt")
      (by decide) (by decide) (by decide) (by decide) (by decide) rfl
      (by decide)
    have hv : validate_zip_file c5cfg (c5entries.map ZEntry.meta) =
        .ok (2, 0, 0) := rfl
    have h1 : safe_extract_zip c5cfg demoBase [strChars "out"] c5entries 5 =
        extractEntries c5cfg demoBase (demoBase ++ [strChars "out"])
          c5entries 4 :=
      safe_extract_zip_ok_case c5cfg demoBase [strChars "out"] c5entries 4
        (2, 0, 0) hv
    rw [h1]
    show extractEntries c5cfg demoBase (demoBase ++ [strChars "out"])
      (ZEntry.file (strChars "a.txt") 0 0 10 ::
        [ZEntry.file (strChars "b.txt") 0 0 10]) 4 = _
    rw [extractEntries, ha, extractEntries, hb, extractEntries]
    simp
  · decide

/-- C5 (amended): the chunked copy tracks the running total per entry, not
across the extraction: each entry's written bytes never exceed the global
cap, the copy of one entry succeeds exactly when its actual stream fits
the cap, and a single entry whose actual stream exceeds the cap (with
metadata declaring 0) fails with `QuotaExceeded` mid-stream having written
at most the cap — the cap bounds bytes written per entry, not globally. -/
theorem C5_per_entry_cap (cfg : ArchiveConfig) (n d : Nat)
    (hf : 1 ≤ cfg.zipMaxFiles) :
    (streamEntry cfg n).1 ≤ cfg.zipMaxTotalSize ∧
    ((streamEntry cfg n).2 = true ↔ n ≤ cfg.zipMaxTotalSize) ∧
    (n ≤ cfg.zipMaxTotalSize →
      safe_extract_zip cfg demoBase [strChars "out"]
          [.file (strChars "f.txt") 0 0 n] (d + 1) =
        (n, .ok [demoBase ++ [strChars "out"] ++ [strChars "f.txt"]])) ∧
    (cfg.zipMaxTotalSize < n →
      (safe_extract_zip cfg demoBase [strChars "out"]
          [.file (strChars "f.txt") 0 0 n] (d + 1)).2 =
        .error .extractTooLarge ∧
      (safe_extract_zip cfg demoBase [strChars "out"]
          [.file (strChars "f.txt") 0 0 n] (d + 1)).1 ≤
        cfg.zipMaxTotalSize) := by
  have hdr : ValidPath (demoBase ++ [strChars "out"]) := by decide
  have hv : validate_zip_file cfg
      ([ZEntry.file (strChars "f.txt") 0 0 n].map ZEntry.meta) =
      .ok (1, 0, 0) := validate_single_zero cfg _ hf
  refine ⟨streamEntry_written_le cfg n, streamEntry_ok_iff cfg n, ?_, ?_⟩
  · intro hn
    rw [safe_extract_zip_ok_case cfg demoBase [strChars "out"] _ d _ hv]
    rw [extractEntries, extractOne_file_ok cfg demoBase _ hdr d n 0 0
      (strChars "f.txt") (by decide) (by decide) (by decide) (by decide)
      (by decide) rfl hn]
    rw [extractEntries]
    simp
  · intro hn
    rw [safe_extract_zip_ok_case cfg demoBase [strChars "out"] _ d _ hv]
    rw [extractEntries, extractOne_file_fail cfg demoBase _ hdr d n 0 0
      (strChars "f.txt") (by decide) (by decide) (by decide) (by decide)
      rfl hn]
    exact ⟨rfl, streamEntry_written_le cfg n⟩

/-- Witness for C5 (amended) at the 10-byte cap and a 3-byte entry. -/
theorem C5_per_entry_cap_witness :
    (streamEntry c5cfg 3).1 ≤ c5cfg.zipMaxTotalSize ∧
    ((streamEntry c5cfg 3).2 = true ↔ 3 ≤ c5cfg.zipMaxTotalSize) ∧
    (3 ≤ c5cfg.zipMaxTotalSize →
      safe_extract_zip c5cfg demoBase [strChars "out"]
          [.file (strChars "f.txt") 0 0 3] (0 + 1) =
        (3, .ok [demoBase ++ [strChars "out"] ++ [strChars "f.txt"]])) ∧
    (c5cfg.zipMaxTotalSize < 3 →
      (safe_extract_zip c5cfg demoBase [strChars "out"]
          [.file (strChars "f.txt") 0 0 3] (0 + 1)).2 =
        .error .extractTooLarge ∧
      (safe_extract_zip c5cfg demoBase [strChars "out"]
          [.file (strChars "f.txt") 0 0 3] (0 + 1)).1 ≤
        c5cfg.zipMaxTotalSize) :=
  C5_per_entry_cap c5cfg 3 0 (by decide)

/-- C8: the recursion budget starts at the configured ceiling and is
decremented once per nesting level: every chain of nested archives of
length at most the ceiling extracts successfully, and every deeper chain
is rejected with the recursion-depth `QuotaExceeded` — the boundary is
exact (`chainZip k` is a chain of `k + 1` archives). -/
theorem C8_depth_boundary (cfg : ArchiveConfig) (hf : 1 ≤ cfg.zipMaxFiles) :
    (∀ k, k < cfg.zipMaxRecursionDepth →
      ∃ w fs, safe_extract_zip cfg demoBase [strChars "out"] (chainZip k)
        cfg.zipMaxRecursionDepth = (w, .ok fs)) ∧
    (∀ k, cfg.zipMaxRecursionDepth ≤ k →
      ∃ w, safe_extract_zip cfg demoBase [strChars "out"] (chainZip k)
        cfg.zipMaxRecursionDepth = (w, .error .depthExceeded)) := by
  constructor
  · intro k hk
    exact chain_extract_ok cfg hf demoBase (by decide) k
      cfg.zipMaxRecursionDepth [strChars "out"] (by decide) hk
  · intro k hk
    exact chain_extract_depthErr cfg hf demoBase (by decide) k
      cfg.zipMaxRecursionDepth [strChars "out"] (by decide) hk

/-- Witness for C8 at the default configuration (ceiling 5): a 5-archive
chain extracts, a 6-archive chain hits the depth error. -/
theorem C8_depth_boundary_witness :
    (∃ w fs, safe_extract_zip defaultConfig demoBase [strChars "out"]
      (chainZip 4) defaultConfig.zipMaxRecursionDepth = (w, .ok fs)) ∧
    (∃ w, safe_extract_zip defaultConfig demoBase [strChars "out"]
      (chainZip 5) defaultConfig.zipMaxRecursionDepth =
        (w, .error .depthExceeded)) :=
  ⟨(C8_depth_boundary defaultConfig (by decide)).1 4 (by decide),
   (C8_depth_boundary defaultConfig (by decide)).2 5 (by decide)⟩

/-- C10: multi-resource acquisition takes the locks in lexicographically
sorted order of the canonical keys (the acquired list is always a prefix
of the sorted key list, which is a sorted permutation of the canonical
keys); every acquired lock is released, in reverse acquisition order,
whether an acquisition times out (the call then fails with
`ResourceBusy`) or all locks are acquired and the operation runs — no
partial lock set survives the call. -/
theorem C10_sorted_acquire_release_all (busy : List Char → Bool)
    (paths : List SPath) (op : Except LErr Unit) :
    (execute_locked_multi busy paths op).released =
      (execute_locked_multi busy paths op).acquired.reverse ∧
    (execute_locked_multi busy paths op).acquired =
      (sortKeys (paths.map lockKey)).take
        (execute_locked_multi busy paths op).acquired.length ∧
    List.Pairwise (fun a b => leChars a b = true)
      (sortKeys (paths.map lockKey)) ∧
    List.Perm (sortKeys (paths.map lockKey)) (paths.map lockKey) ∧
    ((execute_locked_multi busy paths op).acquired ≠
        sortKeys (paths.map lockKey) →
      (execute_locked_multi busy paths op).result = .error .resourceBusy) ∧
    ((execute_locked_multi busy paths op).acquired =
        sortKeys (paths.map lockKey) →
      (execute_locked_multi busy paths op).result = op) := by
  simp only [execute_locked_multi]
  match hr : acquireLoop busy (sortKeys (paths.map lockKey)) with
  | (acq, some k) =>
    refine ⟨rfl, ?_, sortKeys_sorted _, sortKeys_perm _, fun _ => rfl, ?_⟩
    · have htake := acquireLoop_take busy (sortKeys (paths.map lockKey))
      rw [hr] at htake
      simpa using htake
    · intro hEq
      have hlt := acquireLoop_some_short busy (sortKeys (paths.map lockKey))
        k (by rw [hr])
      rw [hr] at hlt
      simp only at hlt hEq
      rw [hEq] at hlt
      exact absurd hlt (lt_irrefl _)
  | (acq, none) =>
    have heq : acq = sortKeys (paths.map lockKey) := by
      have h2 := acquireLoop_none_eq busy (sortKeys (paths.map lockKey))
        (by rw [hr])
      rw [hr] at h2
      exact h2
    refine ⟨rfl, ?_, sortKeys_sorted _, sortKeys_perm _, ?_, fun _ => rfl⟩
    · have htake := acquireLoop_take busy (sortKeys (paths.map lockKey))
      rw [hr] at htake
      simpa using htake
    · intro hne
      exact absurd heq hne

/-- Witness for C10: two paths whose sorted keys are `/a`, `/b`, with `/b`
held elsewhere — `/a` is acquired, the chain times out at `/b`, and the
single held lock is released. -/
theorem C10_sorted_acquire_release_all_witness :
    (execute_locked_multi (fun k => k == strChars "/b")
      [[strChars "b"], [strChars "a"]] (.ok ())).released =
      (execute_locked_multi (fun k => k == strChars "/b")
        [[strChars "b"], [strChars "a"]] (.ok ())).acquired.reverse ∧
    (execute_locked_multi (fun k => k == strChars "/b")
      [[strChars "b"], [strChars "a"]] (.ok ())).acquired =
      (sortKeys ([[strChars "b"], [strChars "a"]].map lockKey)).take
        (execute_locked_multi (fun k => k == strChars "/b")
          [[strChars "b"], [strChars "a"]] (.ok ())).acquired.length ∧
    List.Pairwise (fun a b => leChars a b = true)
      (sortKeys ([[strChars "b"], [strChars "a"]].map lockKey)) ∧
    List.Perm (sortKeys ([[strChars "b"], [strChars "a"]].map lockKey))
      ([[strChars "b"], [strChars "a"]].map lockKey) ∧
    ((execute_locked_multi (fun k => k == strChars "/b")
        [[strChars "b"], [strChars "a"]] (.ok ())).acquired ≠
        sortKeys ([[strChars "b"], [strChars "a"]].map lockKey) →
      (execute_locked_multi (fun k => k == strChars "/b")
        [[strChars "b"], [strChars "a"]] (.ok ())).result =
        .error .resourceBusy) ∧
    ((execute_locked_multi (fun k => k == strChars "/b")
        [[strChars "b"], [strChars "a"]] (.ok ())).acquired =
        sortKeys ([[strChars "b"], [strChars "a"]].map lockKey) →
      (execute_locked_multi (fun k => k == strChars "/b")
        [[strChars "b"], [strChars "a"]] (.ok ())).result = .ok ()) :=
  C10_sorted_acquire_release_all (fun k => k == strChars "/b")
    [[strChars "b"], [strChars "a"]] (.ok ())
